import Mathlib

/-!
# Verification of kaipy's tiled-reader and restart-rescaling core

Shallow embedding of the distributed-data reader (`kaipy/gamera/gampp.py`)
and the conservative restart-rescaling engine
(`kaipy/gamera/magsphereRescale.py`).

Modelling conventions:
* numpy arrays become total functions from natural-number indices to `ℚ`
  (exact arithmetic stands in for float arithmetic; all claims under
  scrutiny are stated "in exact arithmetic").  A preallocated
  `np.zeros(...)` array is the constant-zero function, and an imperative
  loop that assigns disjoint (or identically-valued) destination slices is
  embedded either as a fold of block writes (`assemble`) or as the closed
  form that the loop produces, derived in the accompanying comment.
* HDF5 reads (`kh5.PullVar`, `h5py` dataset access) are external
  collaborators; their results enter the model as abstract functions
  (`pull`, the fields of `RestartFile`).
* `Volume` (`magsphereRescale.py` line 696) computes per-cell volumes with
  `scipy.spatial.ConvexHull`, an excluded external geometry collaborator;
  the gas/flux rescaling routines receive the resulting volume array as an
  abstract function argument `dV`/`dVd` instead of the `X,Y,Z` grids.
-/

/-! ## Block-write machinery

`gampp.GetVar`/`GetVarParallel` and `magsphereRescale.PullRestartMPI` all
build a global array by looping over rank tiles and assigning each rank's
data into a slice of a preallocated `np.zeros` destination.  We embed the
destination array as a function `ι → ℚ` and one slice-assignment
`dest[block] = data` as `blockWrite`; the whole loop is a left fold over
the list of ranks (`assemble`).  The loop order of the Python code is the
order of the list; concurrent completion order is an arbitrary permutation
of it. -/

/-- One numpy slice assignment `dest[block(r)] = data(r)`: inside rank
`r`'s block the destination takes `r`'s value, elsewhere it is unchanged. -/
def blockWrite {ρ ι : Type} (inB : ρ → ι → Bool) (val : ρ → ι → ℚ)
    (r : ρ) (A : ι → ℚ) : ι → ℚ :=
  fun p => if inB r p then val r p else A p

/-- A loop of slice assignments over the ranks in `l`, starting from
`init` (the preallocated array). -/
def assemble {ρ ι : Type} (inB : ρ → ι → Bool) (val : ρ → ι → ℚ)
    (l : List ρ) (init : ι → ℚ) : ι → ℚ :=
  l.foldl (fun A r => blockWrite inB val r A) init

theorem assemble_nil {ρ ι : Type} (inB : ρ → ι → Bool) (val : ρ → ι → ℚ)
    (init : ι → ℚ) : assemble inB val [] init = init := rfl

theorem assemble_cons {ρ ι : Type} (inB : ρ → ι → Bool) (val : ρ → ι → ℚ)
    (r : ρ) (l : List ρ) (init : ι → ℚ) :
    assemble inB val (r :: l) init = assemble inB val l (blockWrite inB val r init) := rfl

/-- A point that no rank of the loop writes keeps its initial value. -/
theorem assemble_not_written {ρ ι : Type} (inB : ρ → ι → Bool) (val : ρ → ι → ℚ)
    (l : List ρ) (init : ι → ℚ) (p : ι) (h : ∀ r ∈ l, inB r p = false) :
    assemble inB val l init p = init p := by
  induction l generalizing init with
  | nil => rfl
  | cons r l ih =>
    rw [assemble_cons, ih _ (fun r' hr' => h r' (List.mem_cons_of_mem _ hr'))]
    simp [blockWrite, h r (List.mem_cons_self r l)]

/-- If every rank of the loop that writes a point writes the same value
`c`, and at least one rank writes it, the assembled array holds `c` there.
This covers both disjoint tilings (a unique writer) and the overlapping
boundary-face writes of `PullRestartMPI`, where neighbouring ranks write
identical shared-face values. -/
theorem assemble_written {ρ ι : Type} (inB : ρ → ι → Bool) (val : ρ → ι → ℚ)
    (l : List ρ) (init : ι → ℚ) (p : ι) (c : ℚ)
    (hex : ∃ r ∈ l, inB r p = true)
    (hag : ∀ r ∈ l, inB r p = true → val r p = c) :
    assemble inB val l init p = c := by
  induction l generalizing init with
  | nil => simp at hex
  | cons r l ih =>
    rw [assemble_cons]
    by_cases h : ∃ r' ∈ l, inB r' p = true
    · exact ih _ h (fun r' hr' => hag r' (List.mem_cons_of_mem _ hr'))
    · push_neg at h
      have hr : inB r p = true := by
        rcases hex with ⟨r', hr', hw⟩
        rcases List.mem_cons.mp hr' with h1 | h2
        · exact h1 ▸ hw
        · exact absurd hw (by simpa using h r' h2)
      have hnone : ∀ r' ∈ l, inB r' p = false := by
        intro r' hr'
        simpa using h r' hr'
      rw [assemble_not_written _ _ _ _ _ hnone]
      simp [blockWrite, hr, hag r (List.mem_cons_self r l) hr]

/-- The rank iteration order of the Python loops:
`itertools.product(range(Ri), range(Rj), range(Rk))`, i.e. ascending
lexicographic order with `i` outermost (`gampp.py` line 458,
`magsphereRescale.py` lines 57-59 / 143-145 have the same `i,j,k`
nesting). -/
def rankList (Ri Rj Rk : ℕ) : List (ℕ × ℕ × ℕ) :=
  (List.range Ri).flatMap (fun i =>
    (List.range Rj).flatMap (fun j =>
      (List.range Rk).map (fun k => (i, j, k))))

theorem mem_rankList {Ri Rj Rk : ℕ} {r : ℕ × ℕ × ℕ} :
    r ∈ rankList Ri Rj Rk ↔ r.1 < Ri ∧ r.2.1 < Rj ∧ r.2.2 < Rk := by
  obtain ⟨i, j, k⟩ := r
  simp only [rankList, List.mem_flatMap, List.mem_map, List.mem_range]
  constructor
  · rintro ⟨i', hi', j', hj', k', hk', h⟩
    cases h
    exact ⟨hi', hj', hk'⟩
  · rintro ⟨hi, hj, hk⟩
    exact ⟨i, hi, j, hj, k, hk, rfl⟩

/-! ## `gampp.GameraPipe` variable reads (`gampp.py`)

`GetVar` (lines 425-479) preallocates `V = np.zeros((Ni,Nj,Nk))` and, in
its sequential branch, loops over ranks writing
`V[iS:iE, jS:jE, kS:kE] = kh5.PullVar(fIn, vID, sID)` with
`iS = i*dNi`, `iE = iS+dNi` (and likewise `j`, `k`).  `GetVarParallel`
(lines 357-421) submits one `PullVarLoc` task per rank to a process pool
and copies each result into the same slices as the futures complete, in
arbitrary completion order; afterwards it applies
`if vScl is not None: V = vScl*V`.  The sequential branch of `GetVar`
never references `vScl`.

The external read `kh5.PullVar`/`PullVarLoc` is modelled as an abstract
function `pull : rank → (ℕ → ℕ → ℕ → ℚ)` giving each rank file's local
block (dependence on `vID`/`sID` is absorbed into `pull`).  The 3-D
branch is embedded; the 2-D branch is the same code with the `k` axis
dropped. -/

/-- Rank `(i,j,k)`'s destination block `[i*dNi, i*dNi+dNi) × ...` of the
cell-centered global array (indexed `(x,y,z)` in `i,j,k` order, matching
`V[iS:iE, jS:jE, kS:kE]`). -/
def cellBlockIn (dNi dNj dNk : ℕ) (r : ℕ × ℕ × ℕ) (p : ℕ × ℕ × ℕ) : Bool :=
  decide (r.1 * dNi ≤ p.1 ∧ p.1 < r.1 * dNi + dNi ∧
          r.2.1 * dNj ≤ p.2.1 ∧ p.2.1 < r.2.1 * dNj + dNj ∧
          r.2.2 * dNk ≤ p.2.2 ∧ p.2.2 < r.2.2 * dNk + dNk)

/-- The value rank `(i,j,k)` writes at global point `p`: its pulled block
evaluated at the local offset `p - (iS,jS,kS)`. -/
def cellBlockVal (dNi dNj dNk : ℕ) (pull : ℕ × ℕ × ℕ → ℕ → ℕ → ℕ → ℚ)
    (r : ℕ × ℕ × ℕ) (p : ℕ × ℕ × ℕ) : ℚ :=
  pull r (p.1 - r.1 * dNi) (p.2.1 - r.2.1 * dNj) (p.2.2 - r.2.2 * dNk)

/-- Sequential branch of `GetVar` (`gampp.py` lines 447-477): loop over
`rankList` in program order, writing each rank's block into the zero
array.  Note: `vScl` is not consulted on this path. -/
def getVarSeq (Ri Rj Rk dNi dNj dNk : ℕ)
    (pull : ℕ × ℕ × ℕ → ℕ → ℕ → ℕ → ℚ) : ℕ × ℕ × ℕ → ℚ :=
  assemble (cellBlockIn dNi dNj dNk) (cellBlockVal dNi dNj dNk pull)
    (rankList Ri Rj Rk) (fun _ => 0)

/-- `GetVarParallel` (`gampp.py` lines 357-421): block writes happen in
completion order `order` (any permutation of `rankList`), then the
optional scale is applied (`if (vScl is not None): V = vScl*V`, lines
419-420). -/
def getVarParallel (dNi dNj dNk : ℕ) (order : List (ℕ × ℕ × ℕ))
    (vScl : Option ℚ) (pull : ℕ × ℕ × ℕ → ℕ → ℕ → ℕ → ℚ) : ℕ × ℕ × ℕ → ℚ :=
  let V := assemble (cellBlockIn dNi dNj dNk) (cellBlockVal dNi dNj dNk pull)
    order (fun _ => 0)
  fun p =>
    match vScl with
    | some c => c * V p
    | none => V p

/-- `GetVar` (`gampp.py` lines 425-479): dispatches to the parallel read
when `self.isMPI and self.doParallel`, else runs the sequential loop —
which returns `V` without ever applying `vScl`. -/
def getVar (Ri Rj Rk dNi dNj dNk : ℕ) (doParallel : Bool)
    (order : List (ℕ × ℕ × ℕ)) (vScl : Option ℚ)
    (pull : ℕ × ℕ × ℕ → ℕ → ℕ → ℕ → ℚ) : ℕ × ℕ × ℕ → ℚ :=
  if doParallel then getVarParallel dNi dNj dNk order vScl pull
  else getVarSeq Ri Rj Rk dNi dNj dNk pull

/-! ## `GameraPipe.GetSlice` (`gampp.py` lines 483-524)

`GetSlice` uppercases the direction string, falls back to `'IDIR'` with a
printed warning when the result is not one of `IDIR/JDIR/KDIR`, reads the
full variable `V = self.GetVar(...)` and slices it at the 0-based index
`np = n - 1`.  The assembled variable is abstracted as `V : ℤ → ℤ → ℤ → ℚ`
(indexed `(i,j,k)`); the index is an integer, matching Python's signed
indexing. -/

/-- Python's `str.upper()` on a direction string: uppercase every
character (structural restatement of Lean's `String.toUpper`, so that
concrete instances reduce). -/
def strUpper (s : String) : String :=
  ⟨s.data.map Char.toUpper⟩

def getSlice (ijkdir : String) (n : ℤ) (V : ℤ → ℤ → ℤ → ℚ) : ℤ → ℤ → ℚ :=
  let sDirs : List String := ["IDIR", "JDIR", "KDIR"]
  let dir := if strUpper ijkdir ∈ sDirs then strUpper ijkdir else "IDIR"
  fun a b =>
    if dir = "IDIR" then V (n - 1) a b
    else if dir = "JDIR" then V a (n - 1) b
    else V a b (n - 1)

/-! ## Gas-state rescaling (`magsphereRescale.py` lines 436-521)

`downGas(X,Y,Z,G,Xd,Yd,Zd)` computes `dV = Volume(X,Y,Z)` (fine-grid cell
volumes) and `dVd = Volume(Xd,Yd,Zd)` (coarse-grid cell volumes),
allocates `Gd = np.zeros((Ns,Nv,Nk//2,Nj//2,Ni//2))` and for every output
index sets
`Gd[s,v,k,j,i] = (dV[2k:2k+2, 2j:2j+2, 2i:2i+2] * G[s,v,2k:2k+2, 2j:2j+2, 2i:2i+2]).sum() / dVd[k,j,i]`.
Every output entry is assigned exactly once by the loop nest, so the
function below is the loop's result; `Volume` is abstracted as the volume
arrays `dV`, `dVd` (see file header).  Note all three logical axes are
halved: the allocation uses `Ni//2` and the block slices span 2 cells in
`k`, `j` *and* `i`. -/

/-- Sum of `f` over the 2×2×2 fine block of coarse cell `(k,j,i)`:
`f[2k:2k+2, 2j:2j+2, 2i:2i+2].sum()`. -/
def blockSum3 (f : ℕ → ℕ → ℕ → ℚ) (k j i : ℕ) : ℚ :=
  ∑ dk ∈ Finset.range 2, ∑ dj ∈ Finset.range 2, ∑ di ∈ Finset.range 2,
    f (2 * k + dk) (2 * j + dj) (2 * i + di)

/-- `downGas` (`magsphereRescale.py` lines 436-475), with the external
`Volume` results passed in as `dV` (fine) and `dVd` (coarse). -/
def downGas (dV dVd : ℕ → ℕ → ℕ → ℚ) (Ns Nv Nk Nj Ni : ℕ)
    (G : ℕ → ℕ → ℕ → ℕ → ℕ → ℚ) : ℕ → ℕ → ℕ → ℕ → ℕ → ℚ :=
  fun s v k j i =>
    if s < Ns ∧ v < Nv ∧ k < Nk / 2 ∧ j < Nj / 2 ∧ i < Ni / 2 then
      blockSum3 (fun kk jj ii => dV kk jj ii * G s v kk jj ii) k j i / dVd k j i
    else 0

/-- `upGas` (`magsphereRescale.py` lines 478-521), with `Volume` results
passed in as `dV` (coarse) and `dVu` (fine).  For each coarse cell the
code computes `QdV = G[s,v,k,j,i]*dV[k,j,i]`, the fine sub-block volumes
`dVijk = dVu[2k:2k+2, 2j:2j+2, 2i:2i+2]`, their total `vScl`, the
children's amounts `QdVu = QdV*(dVijk/vScl)`, and stores
`Gu[children] = QdVu/dVijk`.  Each fine entry is written exactly once (its
unique parent's iteration), so the fine value at `(kk,jj,ii)` is the
parent formula evaluated at `(kk/2, jj/2, ii/2)`. -/
def upGas (dV dVu : ℕ → ℕ → ℕ → ℚ) (Ns Nv Nk Nj Ni : ℕ)
    (G : ℕ → ℕ → ℕ → ℕ → ℕ → ℚ) : ℕ → ℕ → ℕ → ℕ → ℕ → ℚ :=
  fun s v kk jj ii =>
    if s < Ns ∧ v < Nv ∧ kk < 2 * Nk ∧ jj < 2 * Nj ∧ ii < 2 * Ni then
      G s v (kk / 2) (jj / 2) (ii / 2) * dV (kk / 2) (jj / 2) (ii / 2) *
        (dVu kk jj ii / blockSum3 dVu (kk / 2) (jj / 2) (ii / 2)) / dVu kk jj ii
    else 0

/-- Modelled from the spec: the GasState halving operation the spec
describes — "for each output coarse cell, accumulate
`density[fine] * volume[fine]` over its 2×2×1 (only J,K halved; I
preserved) contributing fine cells, divide by the coarse cell's own
volume", with result shape `(Ns,Nv,Nk/2,Nj/2,Ni)`.  Written for
comparison against the source's `downGas`. -/
def downGasSpecJK (dV dVd : ℕ → ℕ → ℕ → ℚ) (Ns Nv Nk Nj Ni : ℕ)
    (G : ℕ → ℕ → ℕ → ℕ → ℕ → ℚ) : ℕ → ℕ → ℕ → ℕ → ℕ → ℚ :=
  fun s v k j i =>
    if s < Ns ∧ v < Nv ∧ k < Nk / 2 ∧ j < Nj / 2 ∧ i < Ni then
      (∑ dk ∈ Finset.range 2, ∑ dj ∈ Finset.range 2,
        dV (2 * k + dk) (2 * j + dj) i * G s v (2 * k + dk) (2 * j + dj) i) / dVd k j i
    else 0

/-- All-ones volume array, used for concrete evaluations. -/
def onesVol : ℕ → ℕ → ℕ → ℚ := fun _ _ _ => 1

/-- All-ones gas state, used for concrete evaluations. -/
def onesGas : ℕ → ℕ → ℕ → ℕ → ℕ → ℚ := fun _ _ _ _ _ => 1

/-! ## Face-flux rescaling (`magsphereRescale.py` lines 738-878)

Direction constants from the source (lines 16-18). -/

def IDIR : ℕ := 0

def JDIR : ℕ := 1

def KDIR : ℕ := 2

/-- `downFlux` (`magsphereRescale.py` lines 738-783).  The code allocates
`Md = np.zeros((Nd, Nk//2+1, Nj//2+1, Ni//2+1))` and loops over coarse
cells `(k,j,i)`, assigning the six faces of each cell, e.g.
`Md[IDIR,k,j,i] = M[IDIR, 2k:2k+2, 2j:2j+2, 2i].sum()` (west) and
`Md[IDIR,k,j,i+1] = M[IDIR, 2k:2k+2, 2j:2j+2, 2i+2].sum()` (east).
A shared face is assigned twice — as the east face of cell `i` and the
west face of cell `i+1` — but both assignments sum the same fine faces
(`2(i+1) = 2i+2`), so the loop's result is order-independent: an i-face
index `(k,j,i)` is written (iff some adjacent coarse cell exists, i.e.
`k < Nk/2`, `j < Nj/2`, `i ≤ Ni/2` and the i-cell range `Ni/2` is
nonempty) with the tangential 2×2 fine-face sum at fine index `2i`;
likewise for j- and k-faces.  `Nk,Nj,Ni` here are the fine *cell* counts
(`M`'s shape minus one, lines 755-758); directions `d ≥ 3` are outside
the allocated array and modelled as 0. -/
def downFlux (M : ℕ → ℕ → ℕ → ℕ → ℚ) (Nk Nj Ni : ℕ) : ℕ → ℕ → ℕ → ℕ → ℚ :=
  fun d k j i =>
    if d = IDIR then
      if k < Nk / 2 ∧ j < Nj / 2 ∧ i ≤ Ni / 2 ∧ 0 < Ni / 2 then
        ∑ dk ∈ Finset.range 2, ∑ dj ∈ Finset.range 2,
          M IDIR (2 * k + dk) (2 * j + dj) (2 * i)
      else 0
    else if d = JDIR then
      if k < Nk / 2 ∧ j ≤ Nj / 2 ∧ 0 < Nj / 2 ∧ i < Ni / 2 then
        ∑ dk ∈ Finset.range 2, ∑ di ∈ Finset.range 2,
          M JDIR (2 * k + dk) (2 * j) (2 * i + di)
      else 0
    else if d = KDIR then
      if k ≤ Nk / 2 ∧ 0 < Nk / 2 ∧ j < Nj / 2 ∧ i < Ni / 2 then
        ∑ dj ∈ Finset.range 2, ∑ di ∈ Finset.range 2,
          M KDIR (2 * k) (2 * j + dj) (2 * i + di)
      else 0
    else 0

/-- `upFlux` (`magsphereRescale.py` lines 786-846).  The code allocates
`Mu = np.zeros((Nd, 2Nk+1, 2Nj+1, 2Ni+1))` and loops over coarse cells
`(k,j,i)`, first writing the four fine sub-faces of each coarse-aligned
(even-index) face with a quarter of the coarse flux, e.g.
`Mu[IDIR, 2k:2k+2, 2j:2j+2, 2i] = 0.25*M[IDIR,k,j,i]`, then the interior
(odd-index) faces as the average of the two flanking even faces just
assigned, e.g.
`Mu[IDIR,...,2i+1] = 0.5*(Mu[IDIR,...,2i] + Mu[IDIR,...,2i+2])`.
Shared even faces are written twice with the same value
(`0.25*M[IDIR,k,j,i+1]` as east of cell `i` and as west of cell `i+1`),
and each odd face is written once, from even-face values that no later
iteration changes — so the loop's result is the parity-based closed form
below.  `Nk,Nj,Ni` are the coarse cell counts (lines 803-805). -/
def upFlux (M : ℕ → ℕ → ℕ → ℕ → ℚ) (Nk Nj Ni : ℕ) : ℕ → ℕ → ℕ → ℕ → ℚ :=
  fun d kf jf fi =>
    if d = IDIR then
      if kf < 2 * Nk ∧ jf < 2 * Nj ∧ fi ≤ 2 * Ni ∧ 0 < Ni then
        if fi % 2 = 0 then (1 / 4) * M IDIR (kf / 2) (jf / 2) (fi / 2)
        else (1 / 2) * ((1 / 4) * M IDIR (kf / 2) (jf / 2) (fi / 2) +
          (1 / 4) * M IDIR (kf / 2) (jf / 2) (fi / 2 + 1))
      else 0
    else if d = JDIR then
      if kf < 2 * Nk ∧ jf ≤ 2 * Nj ∧ 0 < Nj ∧ fi < 2 * Ni then
        if jf % 2 = 0 then (1 / 4) * M JDIR (kf / 2) (jf / 2) (fi / 2)
        else (1 / 2) * ((1 / 4) * M JDIR (kf / 2) (jf / 2) (fi / 2) +
          (1 / 4) * M JDIR (kf / 2) (jf / 2 + 1) (fi / 2))
      else 0
    else if d = KDIR then
      if kf ≤ 2 * Nk ∧ 0 < Nk ∧ jf < 2 * Nj ∧ fi < 2 * Ni then
        if kf % 2 = 0 then (1 / 4) * M KDIR (kf / 2) (jf / 2) (fi / 2)
        else (1 / 2) * ((1 / 4) * M KDIR (kf / 2) (jf / 2) (fi / 2) +
          (1 / 4) * M KDIR (kf / 2 + 1) (jf / 2) (fi / 2))
      else 0
    else 0

/-- The divergence array computed by `MaxDiv` (`magsphereRescale.py`
lines 849-878): for every cell,
`Div[k,j,i] = M[IDIR,k,j,i+1]-M[IDIR,k,j,i]+M[JDIR,k,j+1,i]-M[JDIR,k,j,i]+M[KDIR,k+1,j,i]-M[KDIR,k,j,i]`.
`Nk,Nj,Ni` are the cell counts (shape minus one); the printed max/mean
diagnostics are omitted, the function's return value is the array. -/
def MaxDiv (M : ℕ → ℕ → ℕ → ℕ → ℚ) (Nk Nj Ni : ℕ) : ℕ → ℕ → ℕ → ℚ :=
  fun k j i =>
    if k < Nk ∧ j < Nj ∧ i < Ni then
      M IDIR k j (i + 1) - M IDIR k j i + M JDIR k (j + 1) i - M JDIR k j i +
        M KDIR (k + 1) j i - M KDIR k j i
    else 0

/-! ## Volt-style auxiliary accumulators (`magsphereRescale.py` lines 333-432)

The Python code distinguishes the two historical shapes dynamically: a
plain 4-D field `(Nd,Nk,Nj,Ni)` and a 5-D field `(Nd,Nk,Nj,Ni,Nh)` with a
trailing history axis.  We represent the tagged shapes explicitly. -/

inductive VoltField : Type
  /-- A plain 4-D field of shape `(Nd, Nk, Nj, Ni)`. -/
  | plain : (Nd Nk Nj Ni : ℕ) → (ℕ → ℕ → ℕ → ℕ → ℚ) → VoltField
  /-- A 5-D field of shape `(Nd, Nk, Nj, Ni, Nh)` with a trailing
  history axis. -/
  | hist : (Nd Nk Nj Ni Nh : ℕ) → (ℕ → ℕ → ℕ → ℕ → ℕ → ℚ) → VoltField

/-- The shape of a `VoltField`, as the list a numpy `.shape` would give. -/
def VoltField.dims : VoltField → List ℕ
  | .plain Nd Nk Nj Ni _ => [Nd, Nk, Nj, Ni]
  | .hist Nd Nk Nj Ni Nh _ => [Nd, Nk, Nj, Ni, Nh]

/-- 4-D entry access (zero on a 5-D field, which has no 4-D entries). -/
def VoltField.at4 : VoltField → ℕ → ℕ → ℕ → ℕ → ℚ
  | .plain _ _ _ _ f => f
  | .hist _ _ _ _ _ _ => fun _ _ _ _ => 0

/-- 5-D entry access (zero on a 4-D field, which has no 5-D entries). -/
def VoltField.at5 : VoltField → ℕ → ℕ → ℕ → ℕ → ℕ → ℚ
  | .plain _ _ _ _ _ => fun _ _ _ _ _ => 0
  | .hist _ _ _ _ _ f => f

/-- Entry access on an optional field (`none` — no array — reads as 0). -/
def oat4 : Option VoltField → ℕ → ℕ → ℕ → ℕ → ℚ
  | none => fun _ _ _ _ => 0
  | some F => F.at4

/-- `downVolt` (`magsphereRescale.py` lines 333-355).  The function body
starts with the 4-name tuple unpacking `Nd, Nk, Nj, Ni = G.shape` with no
`try/except` around it: on a 5-D input this raises `ValueError`, modelled
as `none`.  On a 4-D input it allocates
`Gu = np.zeros((Nd, Nk//2, Nj//2, Ni))` and sets every entry to
`G[d, 2k:2k+2, 2j:2j+2, i].mean()` — a 2×2 mean over the `k`,`j` axes
with the `i` axis untouched. -/
def downVolt : VoltField → Option VoltField
  | .plain Nd Nk Nj Ni f =>
    some (.plain Nd (Nk / 2) (Nj / 2) Ni (fun d k j i =>
      if d < Nd ∧ k < Nk / 2 ∧ j < Nj / 2 ∧ i < Ni then
        (f d (2 * k) (2 * j) i + f d (2 * k) (2 * j + 1) i +
          f d (2 * k + 1) (2 * j) i + f d (2 * k + 1) (2 * j + 1) i) / 4
      else 0))
  | .hist _ _ _ _ _ _ => none

/-- `upVolt` (`magsphereRescale.py` lines 360-432).  The outer function's
effective body (the nested shadowing `def` is dead code) is a
`try/except`: try the 4-name unpacking and build
`Gu = np.zeros((Nd, 2Nk, 2Nj, Ni))` with
`Gu[d, 2k:2k+2, 2j:2j+2, i] = G[d,k,j,i]` (2×2 block replication over
`k`,`j`); on the `ValueError` of a 5-D input, unpack five names and apply
the identical block replication with the trailing history index `h`
carried along. -/
def upVolt : VoltField → VoltField
  | .plain Nd Nk Nj Ni f =>
    .plain Nd (2 * Nk) (2 * Nj) Ni (fun d k j i =>
      if d < Nd ∧ k < 2 * Nk ∧ j < 2 * Nj ∧ i < Ni then
        f d (k / 2) (j / 2) i
      else 0)
  | .hist Nd Nk Nj Ni Nh f =>
    .hist Nd (2 * Nk) (2 * Nj) Ni Nh (fun d k j i h =>
      if d < Nd ∧ k < 2 * Nk ∧ j < 2 * Nj ∧ i < Ni ∧ h < Nh then
        f d (k / 2) (j / 2) i h
      else 0)

/-! ## Restart re-partitioning (`magsphereRescale.py` lines 24-200)

`PushRestartMPI` slices the assembled arrays into one file per rank;
`PullRestartMPI` reads the per-rank files back into preallocated global
arrays.  File contents are modelled as a structure of abstract index
functions; attribute copying and the HDF5 calls themselves are external
I/O and omitted.  Global state arrays are indexed exactly as in the
source: gas `(s,v,k,j,i)`, flux `(d,k,j,i)`, coordinates `(k,j,i)`. -/

/-- The datasets of one per-rank restart file (`Gas`, `oGas`, optional
`Gas0`, `magFlux`, `omagFlux`, plus the ghosted subgrid `X`,`Y`,`Z`). -/
structure RestartFile : Type where
  Gas : ℕ → ℕ → ℕ → ℕ → ℕ → ℚ
  oGas : ℕ → ℕ → ℕ → ℕ → ℕ → ℚ
  Gas0 : Option (ℕ → ℕ → ℕ → ℕ → ℕ → ℚ)
  magFlux : ℕ → ℕ → ℕ → ℕ → ℚ
  omagFlux : ℕ → ℕ → ℕ → ℕ → ℚ
  Xc : ℕ → ℕ → ℕ → ℚ
  Yc : ℕ → ℕ → ℕ → ℚ
  Zc : ℕ → ℕ → ℕ → ℚ

/-- `PushRestartMPI` (`magsphereRescale.py` lines 24-117): rank
`(i,j,k)`'s file holds the slices
`G[:, :, kS:kE, jS:jE, iS:iE]` (gas, `kS = k*Nkp` etc., lines 90-95),
`M[:, kS:kE+1, jS:jE+1, iS:iE+1]` (flux, one extra shared boundary face),
and the ghosted subgrid `X[kSg:kEg, jSg:jEg, iSg:iEg]` where the code's
`±NumG` offsets cancel to `kSg = kS` (lines 73-78).  A slice is the
function of the local offset obtained by adding the rank's start index.
`Nip,Njp,Nkp` are the per-rank cell counts `Ni//Ri` etc. (lines 51-53). -/
def PushRestartMPI (Nip Njp Nkp : ℕ)
    (X Y Z : ℕ → ℕ → ℕ → ℚ)
    (G : ℕ → ℕ → ℕ → ℕ → ℕ → ℚ) (M : ℕ → ℕ → ℕ → ℕ → ℚ)
    (oG : ℕ → ℕ → ℕ → ℕ → ℕ → ℚ) (oM : ℕ → ℕ → ℕ → ℕ → ℚ)
    (G0 : Option (ℕ → ℕ → ℕ → ℕ → ℕ → ℚ)) :
    ℕ × ℕ × ℕ → RestartFile :=
  fun r =>
    let iS := r.1 * Nip
    let jS := r.2.1 * Njp
    let kS := r.2.2 * Nkp
    { Gas := fun s v dk dj di => G s v (kS + dk) (jS + dj) (iS + di)
      oGas := fun s v dk dj di => oG s v (kS + dk) (jS + dj) (iS + di)
      Gas0 := G0.map (fun g0 => fun s v dk dj di => g0 s v (kS + dk) (jS + dj) (iS + di))
      magFlux := fun d dk dj di => M d (kS + dk) (jS + dj) (iS + di)
      omagFlux := fun d dk dj di => oM d (kS + dk) (jS + dj) (iS + di)
      Xc := fun dk dj di => X (kS + dk) (jS + dj) (iS + di)
      Yc := fun dk dj di => Y (kS + dk) (jS + dj) (iS + di)
      Zc := fun dk dj di => Z (kS + dk) (jS + dj) (iS + di) }

/-- Rank `(i,j,k)`'s cell-centered destination block in
`PullRestartMPI`'s global arrays: `G[:, :, kS:kE, jS:jE, iS:iE]`
(`magsphereRescale.py` lines 186-189); the spatial point is `(k,j,i)`. -/
def gasBlockIn (Nip Njp Nkp : ℕ) (r p : ℕ × ℕ × ℕ) : Bool :=
  decide (r.2.2 * Nkp ≤ p.1 ∧ p.1 < r.2.2 * Nkp + Nkp ∧
          r.2.1 * Njp ≤ p.2.1 ∧ p.2.1 < r.2.1 * Njp + Njp ∧
          r.1 * Nip ≤ p.2.2 ∧ p.2.2 < r.1 * Nip + Nip)

/-- Rank `(i,j,k)`'s face-flux destination block:
`M[:, kS:kE+1, jS:jE+1, iS:iE+1]` (`magsphereRescale.py` lines 191-192) —
one face wider in every direction, so adjacent ranks overlap on shared
boundary faces. -/
def fluxBlockIn (Nip Njp Nkp : ℕ) (r p : ℕ × ℕ × ℕ) : Bool :=
  decide (r.2.2 * Nkp ≤ p.1 ∧ p.1 ≤ r.2.2 * Nkp + Nkp ∧
          r.2.1 * Njp ≤ p.2.1 ∧ p.2.1 ≤ r.2.1 * Njp + Njp ∧
          r.1 * Nip ≤ p.2.2 ∧ p.2.2 ≤ r.1 * Nip + Nip)

/-- `PullRestartMPI` (`magsphereRescale.py` lines 121-200): loops over
ranks in the same `i,j,k` nesting as `PushRestartMPI`, copying each rank
file's `Gas`/`oGas`/(`Gas0`)/`magFlux`/`omagFlux` dataset into its slice
of preallocated zero global arrays, and returns `(G, M, G0, oG, oM)`.
`doGas0` is decided by whether the first file read — rank `(0,0,0)` —
has a `Gas0` dataset (line 158).  Per-rank cell counts `Nkp,Njp,Nip` are
taken from the first file's `Gas` shape (line 157) and are parameters
here (arrays are abstract functions); a rank file missing `Gas0` when
rank `(0,0,0)` has one would raise `KeyError` in the source and is
modelled by a zero default. -/
def PullRestartMPI (Ri Rj Rk Nip Njp Nkp : ℕ) (files : ℕ × ℕ × ℕ → RestartFile) :
    (ℕ → ℕ → ℕ → ℕ → ℕ → ℚ) × (ℕ → ℕ → ℕ → ℕ → ℚ) ×
      Option (ℕ → ℕ → ℕ → ℕ → ℕ → ℚ) × (ℕ → ℕ → ℕ → ℕ → ℕ → ℚ) ×
      (ℕ → ℕ → ℕ → ℕ → ℚ) :=
  let ranks := rankList Ri Rj Rk
  let gasPull := fun (get : RestartFile → ℕ → ℕ → ℕ → ℕ → ℕ → ℚ) s v k j i =>
    assemble (gasBlockIn Nip Njp Nkp)
      (fun r p => get (files r) s v
        (p.1 - r.2.2 * Nkp) (p.2.1 - r.2.1 * Njp) (p.2.2 - r.1 * Nip))
      ranks (fun _ => 0) (k, j, i)
  let fluxPull := fun (get : RestartFile → ℕ → ℕ → ℕ → ℕ → ℚ) d k j i =>
    assemble (fluxBlockIn Nip Njp Nkp)
      (fun r p => get (files r) d
        (p.1 - r.2.2 * Nkp) (p.2.1 - r.2.1 * Njp) (p.2.2 - r.1 * Nip))
      ranks (fun _ => 0) (k, j, i)
  (gasPull RestartFile.Gas,
   fluxPull RestartFile.magFlux,
   if (files (0, 0, 0)).Gas0.isSome then
     some (gasPull (fun F => F.Gas0.getD (fun _ _ _ _ _ => 0)))
   else none,
   gasPull RestartFile.oGas,
   fluxPull RestartFile.omagFlux)

/-- Entry access on an optional gas array (`None` reads as 0). -/
def oGas5 (o : Option (ℕ → ℕ → ℕ → ℕ → ℕ → ℚ)) : ℕ → ℕ → ℕ → ℕ → ℕ → ℚ :=
  o.getD (fun _ _ _ _ _ => 0)

/-- Every point strictly inside `[0, R*Np)` lies in the half-open block
of some rank index `t < R`. -/
theorem cover1D_lt {R Np : ℕ} (x : ℕ) (hNp : 0 < Np) (hx : x < R * Np) :
    ∃ t, t < R ∧ t * Np ≤ x ∧ x < t * Np + Np := by
  exact ⟨x / Np, (Nat.div_lt_iff_lt_mul hNp).mpr hx, Nat.div_mul_le_self x Np,
    Nat.lt_div_mul_add hNp⟩

/-- Every point of `[0, R*Np]` lies in the closed block of some rank
index `t < R` (shared faces belong to both neighbours; the endpoint
`R*Np` belongs to the last rank). -/
theorem cover1D_le {R Np : ℕ} (x : ℕ) (hNp : 0 < Np) (hR : 0 < R) (hx : x ≤ R * Np) :
    ∃ t, t < R ∧ t * Np ≤ x ∧ x ≤ t * Np + Np := by
  rcases Nat.lt_or_ge x (R * Np) with h | h
  · obtain ⟨t, ht, h1, h2⟩ := cover1D_lt x hNp h
    exact ⟨t, ht, h1, Nat.le_of_lt h2⟩
  · have hxe : x = R * Np := Nat.le_antisymm hx h
    refine ⟨R - 1, by omega, ?_, ?_⟩
    · subst hxe
      exact Nat.mul_le_mul_right Np (by omega)
    · subst hxe
      have : (R - 1) * Np + Np = R * Np := by
        cases R with
        | zero => omega
        | succ n => simp [Nat.succ_sub_one, Nat.succ_mul]
      omega

/-! ## Concrete arrays used in counterexamples and witnesses -/

/-- Constant-1 per-rank pulled block (abstract file contents). -/
def onePull : ℕ × ℕ × ℕ → ℕ → ℕ → ℕ → ℚ := fun _ _ _ _ => 1

/-- Constant-1 assembled 3-D variable over signed indices. -/
def onesV3 : ℤ → ℤ → ℤ → ℚ := fun _ _ _ => 1

/-- Constant-1 face-flux array. -/
def onesFlux : ℕ → ℕ → ℕ → ℕ → ℚ := fun _ _ _ _ => 1

/-- Constant-1 plain 4-D volt field entries. -/
def onesF4 : ℕ → ℕ → ℕ → ℕ → ℚ := fun _ _ _ _ => 1

/-- Constant-1 5-D volt field entries. -/
def onesF5 : ℕ → ℕ → ℕ → ℕ → ℕ → ℚ := fun _ _ _ _ _ => 1

/-! ## Claim theorems -/

/-- **C9**: for every direction string whose uppercasing is not one of
`IDIR`/`JDIR`/`KDIR`, `GetSlice` does not fail but returns the same
result as a call with direction `IDIR` — the 2-D slice `V[n-1,:,:]` at
the 1-based index `n` along the I axis — and valid lowercase direction
strings are accepted as their uppercase equivalents. -/
theorem getSlice_invalid_falls_back_to_IDIR (s : String)
    (h : strUpper s ∉ (["IDIR", "JDIR", "KDIR"] : List String))
    (n : ℤ) (V : ℤ → ℤ → ℤ → ℚ) :
    getSlice s n V = getSlice "IDIR" n V ∧
    getSlice "idir" n V = getSlice "IDIR" n V ∧
    getSlice "jdir" n V = getSlice "JDIR" n V ∧
    getSlice "kdir" n V = getSlice "KDIR" n V ∧
    getSlice "IDIR" n V = fun a b => V (n - 1) a b := by
  have eI : strUpper "IDIR" = "IDIR" := rfl
  refine ⟨?_, rfl, rfl, rfl, ?_⟩
  · simp only [getSlice]
    rw [if_neg h]
    simp [eI]
  · funext a b
    simp [getSlice, eI]

/-- Witness for `getSlice_invalid_falls_back_to_IDIR` at the invalid
direction string `"xdir"`. -/
theorem getSlice_invalid_falls_back_to_IDIR_wit :
    getSlice "xdir" 1 onesV3 = getSlice "IDIR" 1 onesV3 ∧
    getSlice "idir" 1 onesV3 = getSlice "IDIR" 1 onesV3 ∧
    getSlice "jdir" 1 onesV3 = getSlice "JDIR" 1 onesV3 ∧
    getSlice "kdir" 1 onesV3 = getSlice "KDIR" 1 onesV3 ∧
    getSlice "IDIR" 1 onesV3 = fun a b => onesV3 (1 - 1) a b :=
  getSlice_invalid_falls_back_to_IDIR "xdir" (by decide) 1 onesV3

/-- Applying `GetVarParallel` with `vScl = None` is exactly the assembled
array (no scaling step). -/
theorem getVarParallel_none_eq (dNi dNj dNk : ℕ) (order : List (ℕ × ℕ × ℕ))
    (pull : ℕ × ℕ × ℕ → ℕ → ℕ → ℕ → ℚ) :
    getVarParallel dNi dNj dNk order none pull =
      assemble (cellBlockIn dNi dNj dNk) (cellBlockVal dNi dNj dNk pull)
        order (fun _ => 0) := rfl

/-- `GetVar` with `doParallel = False` runs the sequential loop,
whatever `order` and `vScl` are passed. -/
theorem getVar_false_eq (Ri Rj Rk dNi dNj dNk : ℕ) (order : List (ℕ × ℕ × ℕ))
    (vScl : Option ℚ) (pull : ℕ × ℕ × ℕ → ℕ → ℕ → ℕ → ℚ) :
    getVar Ri Rj Rk dNi dNj dNk false order vScl pull =
      getVarSeq Ri Rj Rk dNi dNj dNk pull := rfl

/-- **C2** (claim refuted by evaluation — code bug): with a single rank,
per-rank block of constant 1 and scale factor 2, `GetVar` in sequential
mode (`doParallel = False`) returns the unscaled value 1, while the claim
(and the parallel mode, shown alongside) requires the scaled value 2: the
sequential branch of `GetVar` never applies `vScl`. -/
theorem getVar_sequential_drops_scale :
    getVar 1 1 1 1 1 1 false (rankList 1 1 1) (some 2) onePull (0, 0, 0) = 1 ∧
    getVar 1 1 1 1 1 1 true (rankList 1 1 1) (some 2) onePull (0, 0, 0) = 2 ∧
    (1 : ℚ) ≠ 2 := by
  have hV : assemble (cellBlockIn 1 1 1) (cellBlockVal 1 1 1 onePull)
      (rankList 1 1 1) (fun _ => 0) (0, 0, 0) = 1 := by decide
  refine ⟨by decide, ?_, by norm_num⟩
  show (2 : ℚ) * assemble (cellBlockIn 1 1 1) (cellBlockVal 1 1 1 onePull)
      (rankList 1 1 1) (fun _ => 0) (0, 0, 0) = 2
  rw [hV]
  norm_num

/-- **C3** (counterexample): with the same arguments including a
non-`None` scale factor 2, the sequential and concurrent read modes
disagree (2 versus 1), because only the concurrent mode applies the
scale. -/
theorem getVarParallel_ne_getVarSeq_with_scale :
    getVarParallel 1 1 1 (rankList 1 1 1) (some 2) onePull (0, 0, 0) ≠
      getVar 1 1 1 1 1 1 false (rankList 1 1 1) (some 2) onePull (0, 0, 0) := by
  have hV : assemble (cellBlockIn 1 1 1) (cellBlockVal 1 1 1 onePull)
      (rankList 1 1 1) (fun _ => 0) (0, 0, 0) = 1 := by decide
  have h1 : getVarParallel 1 1 1 (rankList 1 1 1) (some 2) onePull (0, 0, 0) = 2 := by
    show (2 : ℚ) * assemble (cellBlockIn 1 1 1) (cellBlockVal 1 1 1 onePull)
        (rankList 1 1 1) (fun _ => 0) (0, 0, 0) = 2
    rw [hV]
    norm_num
  have h2 : getVar 1 1 1 1 1 1 false (rankList 1 1 1) (some 2) onePull (0, 0, 0) = 1 := by
    decide
  rw [h1, h2]
  norm_num

/-- Two block index ranges `[a*N, a*N+N)` and `[b*N, b*N+N)` that share a
point have the same index. -/
theorem blockIndex_unique {a b x N : ℕ} (h1 : a * N ≤ x) (h2 : x < a * N + N)
    (g1 : b * N ≤ x) (g2 : x < b * N + N) : a = b := by
  rcases Nat.lt_trichotomy a b with hlt | heq | hgt
  · have hm : (a + 1) * N ≤ b * N := Nat.mul_le_mul_right N (Nat.succ_le_of_lt hlt)
    rw [Nat.succ_mul] at hm
    omega
  · exact heq
  · have hm : (b + 1) * N ≤ a * N := Nat.mul_le_mul_right N (Nat.succ_le_of_lt hgt)
    rw [Nat.succ_mul] at hm
    omega

/-- Distinct ranks write disjoint cell-centered blocks: a point
determines its writer. -/
theorem cellBlockIn_unique {dNi dNj dNk : ℕ} {r r' p : ℕ × ℕ × ℕ}
    (h : cellBlockIn dNi dNj dNk r p = true)
    (h' : cellBlockIn dNi dNj dNk r' p = true) : r = r' := by
  simp only [cellBlockIn, decide_eq_true_eq] at h h'
  obtain ⟨h1, h2, h3, h4, h5, h6⟩ := h
  obtain ⟨g1, g2, g3, g4, g5, g6⟩ := h'
  exact Prod.ext (blockIndex_unique h1 h2 g1 g2)
    (Prod.ext (blockIndex_unique h3 h4 g3 g4) (blockIndex_unique h5 h6 g5 g6))

/-- **C3** (amended): with no scale factor, the concurrent read mode
(`GetVarParallel`, block merges in *any* completion order — hence for
every worker-pool width, including 1, 2 and widths exceeding the number
of ranks) produces the same assembled array as the sequential mode
(`GetVar` with `doParallel = False`), at every point. -/
theorem getVarParallel_eq_getVarSeq_noScale (Ri Rj Rk dNi dNj dNk : ℕ)
    (pull : ℕ × ℕ × ℕ → ℕ → ℕ → ℕ → ℚ) (order : List (ℕ × ℕ × ℕ))
    (hperm : order.Perm (rankList Ri Rj Rk)) (p : ℕ × ℕ × ℕ) :
    getVarParallel dNi dNj dNk order none pull p =
      getVar Ri Rj Rk dNi dNj dNk false order none pull p := by
  rw [getVarParallel_none_eq, getVar_false_eq]
  unfold getVarSeq
  by_cases hex : ∃ r ∈ rankList Ri Rj Rk, cellBlockIn dNi dNj dNk r p = true
  · obtain ⟨r0, hr0, hw0⟩ := hex
    have hval : ∀ r ∈ rankList Ri Rj Rk, cellBlockIn dNi dNj dNk r p = true →
        cellBlockVal dNi dNj dNk pull r p = cellBlockVal dNi dNj dNk pull r0 p := by
      intro r _ hw
      rw [cellBlockIn_unique hw hw0]
    rw [assemble_written _ _ _ _ _ _ ⟨r0, hr0, hw0⟩ hval,
      assemble_written _ _ _ _ _ _ ⟨r0, (hperm.mem_iff).mpr hr0, hw0⟩
        (fun r hr hw => hval r ((hperm.mem_iff).mp hr) hw)]
  · push_neg at hex
    rw [assemble_not_written _ _ _ _ _ (fun r hr => by
        simpa using hex r ((hperm.mem_iff).mp hr)),
      assemble_not_written _ _ _ _ _ (fun r hr => by simpa using hex r hr)]

/-- Witness for `getVarParallel_eq_getVarSeq_noScale`: two ranks merged
in reversed completion order. -/
theorem getVarParallel_eq_getVarSeq_noScale_wit :
    getVarParallel 1 1 1 [(1, 0, 0), (0, 0, 0)] none onePull (0, 0, 0) =
      getVar 2 1 1 1 1 1 false [(1, 0, 0), (0, 0, 0)] none onePull (0, 0, 0) :=
  getVarParallel_eq_getVarSeq_noScale 2 1 1 1 1 1 onePull
    [(1, 0, 0), (0, 0, 0)] (List.Perm.swap (0, 0, 0) (1, 0, 0) []) (0, 0, 0)

/-- **C7** (counterexample): `downVolt` on a concrete 5-D field does not
return a result — the 4-name shape unpacking raises, so the claim that
*both* halving and doubling accept a 5-D history field is false. -/
theorem downVolt_hist_input_fails :
    downVolt (VoltField.hist 1 2 2 1 1 onesF5) = none := rfl

/-- **C7** (amended): `upVolt` detects the rank of its input (4-D versus
5-D) and applies the identical 2×2 block operation broadcast over the
trailing history axis when present, returning correctly-shaped results
in both cases; `downVolt` applies its 2×2 block mean to plain 4-D fields
only (shape `(Nd, Nk/2, Nj/2, Ni)`), and fails on a 5-D field. -/
theorem voltRescale_rank_dispatch (Nd Nk Nj Ni Nh : ℕ)
    (f : ℕ → ℕ → ℕ → ℕ → ℚ) (g : ℕ → ℕ → ℕ → ℕ → ℕ → ℚ) :
    ((downVolt (VoltField.plain Nd Nk Nj Ni f)).map VoltField.dims =
      some [Nd, Nk / 2, Nj / 2, Ni]) ∧
    (∀ d k j i, d < Nd → k < Nk / 2 → j < Nj / 2 → i < Ni →
      (4 : ℚ) * oat4 (downVolt (VoltField.plain Nd Nk Nj Ni f)) d k j i =
        f d (2 * k) (2 * j) i + f d (2 * k) (2 * j + 1) i +
          f d (2 * k + 1) (2 * j) i + f d (2 * k + 1) (2 * j + 1) i) ∧
    (downVolt (VoltField.hist Nd Nk Nj Ni Nh g) = none) ∧
    ((upVolt (VoltField.plain Nd Nk Nj Ni f)).dims = [Nd, 2 * Nk, 2 * Nj, Ni]) ∧
    ((upVolt (VoltField.hist Nd Nk Nj Ni Nh g)).dims = [Nd, 2 * Nk, 2 * Nj, Ni, Nh]) ∧
    (∀ d k j i h, h < Nh →
      (upVolt (VoltField.hist Nd Nk Nj Ni Nh g)).at5 d k j i h =
        (upVolt (VoltField.plain Nd Nk Nj Ni (fun a b c e => g a b c e h))).at4 d k j i) := by
  refine ⟨rfl, ?_, rfl, rfl, rfl, ?_⟩
  · intro d k j i hd hk hj hi
    simp only [downVolt, oat4, VoltField.at4, hd, hk, hj, hi, and_self, if_true]
    ring
  · intro d k j i h hh
    simp only [upVolt, VoltField.at5, VoltField.at4, hh, and_true]

/-- Witness for `voltRescale_rank_dispatch` on concrete all-ones fields
of shape `(1,2,2,1)` and `(1,2,2,1,1)`. -/
theorem voltRescale_rank_dispatch_wit :
    (4 : ℚ) * oat4 (downVolt (VoltField.plain 1 2 2 1 onesF4)) 0 0 0 0 =
      onesF4 0 0 0 0 + onesF4 0 0 1 0 + onesF4 0 1 0 0 + onesF4 0 1 1 0 ∧
    (upVolt (VoltField.hist 1 2 2 1 1 onesF5)).at5 0 0 0 0 0 =
      (upVolt (VoltField.plain 1 2 2 1 (fun a b c e => onesF5 a b c e 0))).at4 0 0 0 0 :=
  ⟨(voltRescale_rank_dispatch 1 2 2 1 1 onesF4 onesF5).2.1 0 0 0 0
      (by decide) (by decide) (by decide) (by decide),
    (voltRescale_rank_dispatch 1 2 2 1 1 onesF4 onesF5).2.2.2.2.2 0 0 0 0 0 (by decide)⟩

/-- **C1** (counterexample): on an all-ones gas state with unit volumes
and `(Ns,Nv,Nk,Nj,Ni) = (1,1,2,2,2)`, the source's `downGas` gives 8 at
coarse cell `(0,0,0,0,0)` — the 2×2×2 accumulation — not the 4 that the
claimed 2×2×1 (I-preserving) accumulation gives, and gives 0 at
`(0,0,0,0,1)` — an index the claimed output shape `(1,1,1,1,2)` regards
as a valid output cell with value 4. -/
theorem downGas_ne_downGasSpecJK :
    downGas onesVol onesVol 1 1 2 2 2 onesGas 0 0 0 0 0 = 8 ∧
    downGasSpecJK onesVol onesVol 1 1 2 2 2 onesGas 0 0 0 0 0 = 4 ∧
    downGas onesVol onesVol 1 1 2 2 2 onesGas 0 0 0 0 1 = 0 ∧
    downGasSpecJK onesVol onesVol 1 1 2 2 2 onesGas 0 0 0 0 1 = 4 ∧
    (8 : ℚ) ≠ 4 ∧ (0 : ℚ) ≠ 4 := by
  refine ⟨?_, ?_, ?_, ?_, by norm_num, by norm_num⟩ <;>
    norm_num [downGas, downGasSpecJK, blockSum3, onesVol, onesGas,
      Finset.sum_range_succ]

/-- **C1** (amended): `downGas` halves *all three* logical axes: each
in-range coarse cell's value times its own coarse volume equals the
`density*volume` accumulation over its 2×2×2 (K, J and I all halved)
block of fine cells, and the output carries no entries at I indices
`≥ Ni/2` — the result has shape `(Ns,Nv,Nk/2,Nj/2,Ni/2)`, not
`(Ns,Nv,Nk/2,Nj/2,Ni)`. -/
theorem downGas_halves_all_three_axes (dV dVd : ℕ → ℕ → ℕ → ℚ)
    (Ns Nv Nk Nj Ni : ℕ) (G : ℕ → ℕ → ℕ → ℕ → ℕ → ℚ) :
    (∀ s v k j i, s < Ns → v < Nv → k < Nk / 2 → j < Nj / 2 → i < Ni / 2 →
      dVd k j i ≠ 0 →
      dVd k j i * downGas dV dVd Ns Nv Nk Nj Ni G s v k j i =
        blockSum3 (fun kk jj ii => dV kk jj ii * G s v kk jj ii) k j i) ∧
    (∀ s v k j i, Ni / 2 ≤ i → downGas dV dVd Ns Nv Nk Nj Ni G s v k j i = 0) := by
  constructor
  · intro s v k j i hs hv hk hj hi hd
    simp only [downGas, hs, hv, hk, hj, hi, and_self, if_true]
    rw [mul_comm, div_mul_cancel₀ _ hd]
  · intro s v k j i hi
    have hni : ¬ i < Ni / 2 := Nat.not_lt.mpr hi
    simp [downGas, hni]

/-- Witness for `downGas_halves_all_three_axes` on the all-ones data. -/
theorem downGas_halves_all_three_axes_wit :
    onesVol 0 0 0 * downGas onesVol onesVol 1 1 2 2 2 onesGas 0 0 0 0 0 =
      blockSum3 (fun kk jj ii => onesVol kk jj ii * onesGas 0 0 kk jj ii) 0 0 0 ∧
    downGas onesVol onesVol 1 1 2 2 2 onesGas 0 0 0 0 1 = 0 :=
  ⟨(downGas_halves_all_three_axes onesVol onesVol 1 1 2 2 2 onesGas).1 0 0 0 0 0
      (by decide) (by decide) (by decide) (by decide) (by decide) (by norm_num [onesVol]),
    (downGas_halves_all_three_axes onesVol onesVol 1 1 2 2 2 onesGas).2 0 0 0 0 1
      (by decide)⟩

/-- Pointwise congruence over a 2×2×2 fine block. -/
theorem blockSum3_congr {f g : ℕ → ℕ → ℕ → ℚ} {k j i : ℕ}
    (h : ∀ dk dj di, dk < 2 → dj < 2 → di < 2 →
      f (2 * k + dk) (2 * j + dj) (2 * i + di) =
        g (2 * k + dk) (2 * j + dj) (2 * i + di)) :
    blockSum3 f k j i = blockSum3 g k j i := by
  unfold blockSum3
  refine Finset.sum_congr rfl fun dk hdk => Finset.sum_congr rfl fun dj hdj =>
    Finset.sum_congr rfl fun di hdi => ?_
  exact h dk dj di (Finset.mem_range.mp hdk) (Finset.mem_range.mp hdj)
    (Finset.mem_range.mp hdi)

/-- Pulling a constant factor out of a 2×2×2 block sum. -/
theorem blockSum3_mul_left (c : ℚ) (f : ℕ → ℕ → ℕ → ℚ) (k j i : ℕ) :
    blockSum3 (fun kk jj ii => c * f kk jj ii) k j i = c * blockSum3 f k j i := by
  unfold blockSum3
  simp [Finset.mul_sum]

/-- A block sum of positive fine volumes is positive. -/
theorem blockSum3_pos {f : ℕ → ℕ → ℕ → ℚ} {k j i : ℕ}
    (h : ∀ dk dj di, dk < 2 → dj < 2 → di < 2 →
      0 < f (2 * k + dk) (2 * j + dj) (2 * i + di)) :
    0 < blockSum3 f k j i := by
  unfold blockSum3
  have hne : (Finset.range 2).Nonempty := ⟨0, Finset.mem_range.mpr (by norm_num)⟩
  refine Finset.sum_pos (fun dk hdk => Finset.sum_pos (fun dj hdj =>
    Finset.sum_pos (fun di hdi => h dk dj di (Finset.mem_range.mp hdk)
      (Finset.mem_range.mp hdj) (Finset.mem_range.mp hdi)) hne) hne) hne

/-- `upGas` at the child cell `(2k+dk, 2j+dj, 2i+di)` of an in-range
coarse cell `(k,j,i)`: the code's
`(QdV * (dVijk/vScl)) / dVijk` expression. -/
theorem upGas_at_child (dVc dVf : ℕ → ℕ → ℕ → ℚ) (Ns Nv Nk Nj Ni : ℕ)
    (G : ℕ → ℕ → ℕ → ℕ → ℕ → ℚ) (s v k j i dk dj di : ℕ)
    (hs : s < Ns) (hv : v < Nv) (hk : k < Nk) (hj : j < Nj) (hi : i < Ni)
    (hdk : dk < 2) (hdj : dj < 2) (hdi : di < 2) :
    upGas dVc dVf Ns Nv Nk Nj Ni G s v (2 * k + dk) (2 * j + dj) (2 * i + di) =
      G s v k j i * dVc k j i *
        (dVf (2 * k + dk) (2 * j + dj) (2 * i + di) / blockSum3 dVf k j i) /
        dVf (2 * k + dk) (2 * j + dj) (2 * i + di) := by
  have h1 : 2 * k + dk < 2 * Nk := by omega
  have h2 : 2 * j + dj < 2 * Nj := by omega
  have h3 : 2 * i + di < 2 * Ni := by omega
  have e1 : (2 * k + dk) / 2 = k := by omega
  have e2 : (2 * j + dj) / 2 = j := by omega
  have e3 : (2 * i + di) / 2 = i := by omega
  simp [upGas, hs, hv, h1, h2, h3, e1, e2, e3]

/-- The total amount `sum(child density * child volume)` that `upGas`
places in one coarse cell's 2×2×2 block of children equals the parent
amount `density * volume`, given positive child volumes. -/
theorem upGas_blockAmount (dVc dVf : ℕ → ℕ → ℕ → ℚ) (Ns Nv Nk Nj Ni : ℕ)
    (G : ℕ → ℕ → ℕ → ℕ → ℕ → ℚ) (s v k j i : ℕ)
    (hs : s < Ns) (hv : v < Nv) (hk : k < Nk) (hj : j < Nj) (hi : i < Ni)
    (hpos : ∀ dk dj di, dk < 2 → dj < 2 → di < 2 →
      0 < dVf (2 * k + dk) (2 * j + dj) (2 * i + di)) :
    blockSum3 (fun kk jj ii =>
        dVf kk jj ii * upGas dVc dVf Ns Nv Nk Nj Ni G s v kk jj ii) k j i =
      G s v k j i * dVc k j i := by
  have hSne : blockSum3 dVf k j i ≠ 0 := ne_of_gt (blockSum3_pos hpos)
  have step1 : blockSum3 (fun kk jj ii =>
        dVf kk jj ii * upGas dVc dVf Ns Nv Nk Nj Ni G s v kk jj ii) k j i =
      blockSum3 (fun kk jj ii =>
        G s v k j i * dVc k j i / blockSum3 dVf k j i * dVf kk jj ii) k j i := by
    refine blockSum3_congr fun dk dj di hdk hdj hdi => ?_
    have hne := ne_of_gt (hpos dk dj di hdk hdj hdi)
    rw [upGas_at_child dVc dVf Ns Nv Nk Nj Ni G s v k j i dk dj di
      hs hv hk hj hi hdk hdj hdi]
    field_simp
    ring
  rw [step1, blockSum3_mul_left, div_mul_cancel₀ _ hSne]

/-- **C6**: `upGas` exactly redistributes the parent amount: for every
in-range coarse cell with positive fine sub-cell volumes, the sum over
its 2×2×2 children of `child_density * child_volume` equals
`parent_density * parent_volume`, in exact arithmetic. -/
theorem upGas_exactly_redistributes (dVc dVf : ℕ → ℕ → ℕ → ℚ)
    (Ns Nv Nk Nj Ni : ℕ) (G : ℕ → ℕ → ℕ → ℕ → ℕ → ℚ) (s v k j i : ℕ)
    (hs : s < Ns) (hv : v < Nv) (hk : k < Nk) (hj : j < Nj) (hi : i < Ni)
    (hpos : ∀ dk dj di, dk < 2 → dj < 2 → di < 2 →
      0 < dVf (2 * k + dk) (2 * j + dj) (2 * i + di)) :
    blockSum3 (fun kk jj ii =>
        dVf kk jj ii * upGas dVc dVf Ns Nv Nk Nj Ni G s v kk jj ii) k j i =
      G s v k j i * dVc k j i :=
  upGas_blockAmount dVc dVf Ns Nv Nk Nj Ni G s v k j i hs hv hk hj hi hpos

/-- Witness for `upGas_exactly_redistributes` on all-ones data. -/
theorem upGas_exactly_redistributes_wit :
    blockSum3 (fun kk jj ii =>
        onesVol kk jj ii * upGas onesVol onesVol 1 1 1 1 1 onesGas 0 0 kk jj ii) 0 0 0 =
      onesGas 0 0 0 0 0 * onesVol 0 0 0 :=
  upGas_exactly_redistributes onesVol onesVol 1 1 1 1 1 onesGas 0 0 0 0 0
    (by decide) (by decide) (by decide) (by decide) (by decide)
    (fun _ _ _ _ _ _ => by norm_num [onesVol])

/-- **C4**: halving the result of doubling recovers the original gas
state exactly at every in-range coarse cell, for any coarse/fine volume
fields that are positive everywhere (in exact arithmetic):
`downGas ∘ upGas = id` on cell-centered densities.  The composition uses
the grids the way the driving code does — `upGas(X,Y,Z,G,Xu,Yu,Zu)`
then `downGas(Xu,Yu,Zu,·,X,Y,Z)` — so `downGas` divides by the very
coarse volumes `upGas` multiplied by. -/
theorem downGas_upGas_roundTrip (dVc dVf : ℕ → ℕ → ℕ → ℚ)
    (Ns Nv Nk Nj Ni : ℕ) (G : ℕ → ℕ → ℕ → ℕ → ℕ → ℚ)
    (hcpos : ∀ k j i, 0 < dVc k j i) (hfpos : ∀ k j i, 0 < dVf k j i)
    (s v k j i : ℕ)
    (hs : s < Ns) (hv : v < Nv) (hk : k < Nk) (hj : j < Nj) (hi : i < Ni) :
    downGas dVf dVc Ns Nv (2 * Nk) (2 * Nj) (2 * Ni)
        (upGas dVc dVf Ns Nv Nk Nj Ni G) s v k j i = G s v k j i := by
  have hk2 : k < 2 * Nk / 2 := by omega
  have hj2 : j < 2 * Nj / 2 := by omega
  have hi2 : i < 2 * Ni / 2 := by omega
  simp only [downGas, hs, hv, hk2, hj2, hi2, and_self, if_true, true_and]
  rw [upGas_blockAmount dVc dVf Ns Nv Nk Nj Ni G s v k j i hs hv hk hj hi
    (fun dk dj di _ _ _ => hfpos _ _ _)]
  exact mul_div_cancel_right₀ _ (ne_of_gt (hcpos k j i))

/-- Witness for `downGas_upGas_roundTrip` on all-ones data. -/
theorem downGas_upGas_roundTrip_wit :
    downGas onesVol onesVol 1 1 (2 * 1) (2 * 1) (2 * 1)
        (upGas onesVol onesVol 1 1 1 1 1 onesGas) 0 0 0 0 0 =
      onesGas 0 0 0 0 0 :=
  downGas_upGas_roundTrip onesVol onesVol 1 1 1 1 1 onesGas
    (fun _ _ _ => by norm_num [onesVol]) (fun _ _ _ => by norm_num [onesVol])
    0 0 0 0 0 (by decide) (by decide) (by decide) (by decide) (by decide)

/-- The i-face difference across one fine cell of the doubled flux: an
eighth of the coarse i-face difference of its parent cell. -/
theorem upFlux_I_diff (M : ℕ → ℕ → ℕ → ℕ → ℚ) (Nk Nj Ni kf jf fi : ℕ)
    (hk : kf < 2 * Nk) (hj : jf < 2 * Nj) (hi : fi < 2 * Ni) :
    upFlux M Nk Nj Ni IDIR kf jf (fi + 1) - upFlux M Nk Nj Ni IDIR kf jf fi =
      (1 / 8) * (M IDIR (kf / 2) (jf / 2) (fi / 2 + 1) -
        M IDIR (kf / 2) (jf / 2) (fi / 2)) := by
  have hNi : 0 < Ni := by omega
  obtain ⟨q, hq | hq⟩ : ∃ q, fi = 2 * q ∨ fi = 2 * q + 1 := ⟨fi / 2, by omega⟩
  · subst hq
    have c1 : 2 * q ≤ 2 * Ni := by omega
    have c2 : 2 * q + 1 ≤ 2 * Ni := by omega
    have e0 : (2 * q) % 2 = 0 := by omega
    have e1 : (2 * q + 1) % 2 = 1 := by omega
    have d0 : (2 * q) / 2 = q := by omega
    have d1 : (2 * q + 1) / 2 = q := by omega
    simp [upFlux, hk, hj, c1, c2, hNi, e0, e1, d0, d1]
    ring
  · subst hq
    have c1 : 2 * q + 1 ≤ 2 * Ni := by omega
    have c2 : 2 * q + 1 + 1 ≤ 2 * Ni := by omega
    have e1 : (2 * q + 1) % 2 = 1 := by omega
    have e2 : (2 * q + 1 + 1) % 2 = 0 := by omega
    have d1 : (2 * q + 1) / 2 = q := by omega
    have d2 : (2 * q + 1 + 1) / 2 = q + 1 := by omega
    simp [upFlux, hk, hj, c1, c2, hNi, e1, e2, d1, d2]
    ring

/-- The j-face difference across one fine cell of the doubled flux. -/
theorem upFlux_J_diff (M : ℕ → ℕ → ℕ → ℕ → ℚ) (Nk Nj Ni kf jf fi : ℕ)
    (hk : kf < 2 * Nk) (hj : jf < 2 * Nj) (hi : fi < 2 * Ni) :
    upFlux M Nk Nj Ni JDIR kf (jf + 1) fi - upFlux M Nk Nj Ni JDIR kf jf fi =
      (1 / 8) * (M JDIR (kf / 2) (jf / 2 + 1) (fi / 2) -
        M JDIR (kf / 2) (jf / 2) (fi / 2)) := by
  have hNj : 0 < Nj := by omega
  obtain ⟨q, hq | hq⟩ : ∃ q, jf = 2 * q ∨ jf = 2 * q + 1 := ⟨jf / 2, by omega⟩
  · subst hq
    have c1 : 2 * q ≤ 2 * Nj := by omega
    have c2 : 2 * q + 1 ≤ 2 * Nj := by omega
    have e0 : (2 * q) % 2 = 0 := by omega
    have e1 : (2 * q + 1) % 2 = 1 := by omega
    have d0 : (2 * q) / 2 = q := by omega
    have d1 : (2 * q + 1) / 2 = q := by omega
    simp [upFlux, IDIR, JDIR, KDIR, hk, hi, c1, c2, hNj, e0, e1, d0, d1]
    ring
  · subst hq
    have c1 : 2 * q + 1 ≤ 2 * Nj := by omega
    have c2 : 2 * q + 1 + 1 ≤ 2 * Nj := by omega
    have e1 : (2 * q + 1) % 2 = 1 := by omega
    have e2 : (2 * q + 1 + 1) % 2 = 0 := by omega
    have d1 : (2 * q + 1) / 2 = q := by omega
    have d2 : (2 * q + 1 + 1) / 2 = q + 1 := by omega
    simp [upFlux, IDIR, JDIR, KDIR, hk, hi, c1, c2, hNj, e1, e2, d1, d2]
    ring

/-- The k-face difference across one fine cell of the doubled flux. -/
theorem upFlux_K_diff (M : ℕ → ℕ → ℕ → ℕ → ℚ) (Nk Nj Ni kf jf fi : ℕ)
    (hk : kf < 2 * Nk) (hj : jf < 2 * Nj) (hi : fi < 2 * Ni) :
    upFlux M Nk Nj Ni KDIR (kf + 1) jf fi - upFlux M Nk Nj Ni KDIR kf jf fi =
      (1 / 8) * (M KDIR (kf / 2 + 1) (jf / 2) (fi / 2) -
        M KDIR (kf / 2) (jf / 2) (fi / 2)) := by
  have hNk : 0 < Nk := by omega
  obtain ⟨q, hq | hq⟩ : ∃ q, kf = 2 * q ∨ kf = 2 * q + 1 := ⟨kf / 2, by omega⟩
  · subst hq
    have c1 : 2 * q ≤ 2 * Nk := by omega
    have c2 : 2 * q + 1 ≤ 2 * Nk := by omega
    have e0 : (2 * q) % 2 = 0 := by omega
    have e1 : (2 * q + 1) % 2 = 1 := by omega
    have d0 : (2 * q) / 2 = q := by omega
    have d1 : (2 * q + 1) / 2 = q := by omega
    simp [upFlux, IDIR, JDIR, KDIR, hj, hi, c1, c2, hNk, e0, e1, d0, d1]
    ring
  · subst hq
    have c1 : 2 * q + 1 ≤ 2 * Nk := by omega
    have c2 : 2 * q + 1 + 1 ≤ 2 * Nk := by omega
    have e1 : (2 * q + 1) % 2 = 1 := by omega
    have e2 : (2 * q + 1 + 1) % 2 = 0 := by omega
    have d1 : (2 * q + 1) / 2 = q := by omega
    have d2 : (2 * q + 1 + 1) / 2 = q + 1 := by omega
    simp [upFlux, IDIR, JDIR, KDIR, hj, hi, c1, c2, hNk, e1, e2, d1, d2]
    ring

/-- **C10**: at every in-range fine cell, the discrete divergence of the
doubled flux `upFlux(M)` (as computed by `MaxDiv`) equals exactly one
eighth of the discrete divergence of the containing coarse cell, in
exact arithmetic — so flux doubling maps a divergence-free coarse flux
to a divergence-free fine flux. -/
theorem upFlux_div_is_eighth (M : ℕ → ℕ → ℕ → ℕ → ℚ) (Nk Nj Ni kf jf fi : ℕ)
    (hk : kf < 2 * Nk) (hj : jf < 2 * Nj) (hi : fi < 2 * Ni) :
    MaxDiv (upFlux M Nk Nj Ni) (2 * Nk) (2 * Nj) (2 * Ni) kf jf fi =
      (1 / 8) * MaxDiv M Nk Nj Ni (kf / 2) (jf / 2) (fi / 2) := by
  have hkc : kf / 2 < Nk := by omega
  have hjc : jf / 2 < Nj := by omega
  have hic : fi / 2 < Ni := by omega
  have hI := upFlux_I_diff M Nk Nj Ni kf jf fi hk hj hi
  have hJ := upFlux_J_diff M Nk Nj Ni kf jf fi hk hj hi
  have hK := upFlux_K_diff M Nk Nj Ni kf jf fi hk hj hi
  simp only [MaxDiv]
  rw [if_pos (⟨hk, hj, hi⟩ : _ ∧ _ ∧ _), if_pos (⟨hkc, hjc, hic⟩ : _ ∧ _ ∧ _)]
  linear_combination hI + hJ + hK

/-- Witness for `upFlux_div_is_eighth` on the constant-1 flux. -/
theorem upFlux_div_is_eighth_wit :
    MaxDiv (upFlux onesFlux 1 1 1) (2 * 1) (2 * 1) (2 * 1) 0 0 0 =
      (1 / 8) * MaxDiv onesFlux 1 1 1 (0 / 2) (0 / 2) (0 / 2) :=
  upFlux_div_is_eighth onesFlux 1 1 1 0 0 0 (by decide) (by decide) (by decide)

/-- `MaxDiv`'s divergence value at an in-range cell. -/
theorem MaxDiv_at (M : ℕ → ℕ → ℕ → ℕ → ℚ) (Nk Nj Ni k j i : ℕ)
    (hk : k < Nk) (hj : j < Nj) (hi : i < Ni) :
    MaxDiv M Nk Nj Ni k j i =
      M IDIR k j (i + 1) - M IDIR k j i + M JDIR k (j + 1) i - M JDIR k j i +
        M KDIR (k + 1) j i - M KDIR k j i := by
  simp only [MaxDiv]
  rw [if_pos (⟨hk, hj, hi⟩ : _ ∧ _ ∧ _)]

/-- The halved i-face flux at an assigned face index: the tangential
2×2 sum of fine i-faces at fine index `2i`. -/
theorem downFlux_I_at (M : ℕ → ℕ → ℕ → ℕ → ℚ) (Nk Nj Ni k j i : ℕ)
    (hk : k < Nk / 2) (hj : j < Nj / 2) (hi : i ≤ Ni / 2) (hNi : 0 < Ni / 2) :
    downFlux M Nk Nj Ni IDIR k j i =
      M IDIR (2 * k) (2 * j) (2 * i) + M IDIR (2 * k) (2 * j + 1) (2 * i) +
        M IDIR (2 * k + 1) (2 * j) (2 * i) +
        M IDIR (2 * k + 1) (2 * j + 1) (2 * i) := by
  simp [downFlux, IDIR, JDIR, KDIR, hk, hj, hi, hNi, Finset.sum_range_succ]
  ring

/-- The halved j-face flux at an assigned face index. -/
theorem downFlux_J_at (M : ℕ → ℕ → ℕ → ℕ → ℚ) (Nk Nj Ni k j i : ℕ)
    (hk : k < Nk / 2) (hj : j ≤ Nj / 2) (hNj : 0 < Nj / 2) (hi : i < Ni / 2) :
    downFlux M Nk Nj Ni JDIR k j i =
      M JDIR (2 * k) (2 * j) (2 * i) + M JDIR (2 * k) (2 * j) (2 * i + 1) +
        M JDIR (2 * k + 1) (2 * j) (2 * i) +
        M JDIR (2 * k + 1) (2 * j) (2 * i + 1) := by
  simp [downFlux, IDIR, JDIR, KDIR, hk, hj, hi, hNj, Finset.sum_range_succ]
  ring

/-- The halved k-face flux at an assigned face index. -/
theorem downFlux_K_at (M : ℕ → ℕ → ℕ → ℕ → ℚ) (Nk Nj Ni k j i : ℕ)
    (hk : k ≤ Nk / 2) (hNk : 0 < Nk / 2) (hj : j < Nj / 2) (hi : i < Ni / 2) :
    downFlux M Nk Nj Ni KDIR k j i =
      M KDIR (2 * k) (2 * j) (2 * i) + M KDIR (2 * k) (2 * j) (2 * i + 1) +
        M KDIR (2 * k) (2 * j + 1) (2 * i) +
        M KDIR (2 * k) (2 * j + 1) (2 * i + 1) := by
  simp [downFlux, IDIR, JDIR, KDIR, hk, hj, hi, hNk, Finset.sum_range_succ]
  ring

/-- **C5**: if the fine flux state has zero discrete divergence (as
computed by `MaxDiv`) at every fine cell, then the halved flux state
`downFlux(M)` has zero discrete divergence at every coarse cell, in
exact arithmetic: each coarse face sums its contributing fine faces, so
the coarse divergence is the sum of the eight fine divergences. -/
theorem downFlux_preserves_divFree (M : ℕ → ℕ → ℕ → ℕ → ℚ) (Nk Nj Ni : ℕ)
    (hdiv : ∀ kf jf fi, kf < Nk → jf < Nj → fi < Ni →
      MaxDiv M Nk Nj Ni kf jf fi = 0)
    (k j i : ℕ) (hk : k < Nk / 2) (hj : j < Nj / 2) (hi : i < Ni / 2) :
    MaxDiv (downFlux M Nk Nj Ni) (Nk / 2) (Nj / 2) (Ni / 2) k j i = 0 := by
  have hNk2 : 0 < Nk / 2 := by omega
  have hNj2 : 0 < Nj / 2 := by omega
  have hNi2 : 0 < Ni / 2 := by omega
  have hplus : ∀ x : ℕ, 2 * x + 1 + 1 = 2 * x + 2 := fun x => by omega
  have h000 := (MaxDiv_at M Nk Nj Ni (2 * k) (2 * j) (2 * i)
    (by omega) (by omega) (by omega)).symm.trans
    (hdiv (2 * k) (2 * j) (2 * i) (by omega) (by omega) (by omega))
  have h001 := (MaxDiv_at M Nk Nj Ni (2 * k) (2 * j) (2 * i + 1)
    (by omega) (by omega) (by omega)).symm.trans
    (hdiv (2 * k) (2 * j) (2 * i + 1) (by omega) (by omega) (by omega))
  have h010 := (MaxDiv_at M Nk Nj Ni (2 * k) (2 * j + 1) (2 * i)
    (by omega) (by omega) (by omega)).symm.trans
    (hdiv (2 * k) (2 * j + 1) (2 * i) (by omega) (by omega) (by omega))
  have h011 := (MaxDiv_at M Nk Nj Ni (2 * k) (2 * j + 1) (2 * i + 1)
    (by omega) (by omega) (by omega)).symm.trans
    (hdiv (2 * k) (2 * j + 1) (2 * i + 1) (by omega) (by omega) (by omega))
  have h100 := (MaxDiv_at M Nk Nj Ni (2 * k + 1) (2 * j) (2 * i)
    (by omega) (by omega) (by omega)).symm.trans
    (hdiv (2 * k + 1) (2 * j) (2 * i) (by omega) (by omega) (by omega))
  have h101 := (MaxDiv_at M Nk Nj Ni (2 * k + 1) (2 * j) (2 * i + 1)
    (by omega) (by omega) (by omega)).symm.trans
    (hdiv (2 * k + 1) (2 * j) (2 * i + 1) (by omega) (by omega) (by omega))
  have h110 := (MaxDiv_at M Nk Nj Ni (2 * k + 1) (2 * j + 1) (2 * i)
    (by omega) (by omega) (by omega)).symm.trans
    (hdiv (2 * k + 1) (2 * j + 1) (2 * i) (by omega) (by omega) (by omega))
  have h111 := (MaxDiv_at M Nk Nj Ni (2 * k + 1) (2 * j + 1) (2 * i + 1)
    (by omega) (by omega) (by omega)).symm.trans
    (hdiv (2 * k + 1) (2 * j + 1) (2 * i + 1) (by omega) (by omega) (by omega))
  simp only [hplus] at h001 h011 h101 h111 h010 h110 h100
  rw [MaxDiv_at _ _ _ _ _ _ _ hk hj hi,
    downFlux_I_at M Nk Nj Ni k j (i + 1) hk hj (by omega) hNi2,
    downFlux_I_at M Nk Nj Ni k j i hk hj (by omega) hNi2,
    downFlux_J_at M Nk Nj Ni k (j + 1) i hk (by omega) hNj2 hi,
    downFlux_J_at M Nk Nj Ni k j i hk (by omega) hNj2 hi,
    downFlux_K_at M Nk Nj Ni (k + 1) j i (by omega) hNk2 hj hi,
    downFlux_K_at M Nk Nj Ni k j i (by omega) hNk2 hj hi]
  simp only [Nat.mul_add, Nat.mul_one]
  linear_combination h000 + h001 + h010 + h011 + h100 + h101 + h110 + h111

/-- Witness for `downFlux_preserves_divFree`: the constant-1 fine flux
is divergence-free, and so is its halving. -/
theorem downFlux_preserves_divFree_wit :
    MaxDiv (downFlux onesFlux 2 2 2) (2 / 2) (2 / 2) (2 / 2) 0 0 0 = 0 :=
  downFlux_preserves_divFree onesFlux 2 2 2
    (fun kf jf fi hk hj hi => by
      rw [MaxDiv_at onesFlux 2 2 2 kf jf fi hk hj hi]
      norm_num [onesFlux])
    0 0 0 (by decide) (by decide) (by decide)

/-- Assembling rank slices of a cell-centered global array `A` (each rank
reading `A` at its own offset) recovers `A` at every in-range point. -/
theorem assemble_gas_roundTrip (Ri Rj Rk Nip Njp Nkp : ℕ)
    (hNip : 0 < Nip) (hNjp : 0 < Njp) (hNkp : 0 < Nkp)
    (A : ℕ → ℕ → ℕ → ℚ) (k j i : ℕ)
    (hk : k < Rk * Nkp) (hj : j < Rj * Njp) (hi : i < Ri * Nip) :
    assemble (gasBlockIn Nip Njp Nkp)
      (fun r p => A (r.2.2 * Nkp + (p.1 - r.2.2 * Nkp))
        (r.2.1 * Njp + (p.2.1 - r.2.1 * Njp)) (r.1 * Nip + (p.2.2 - r.1 * Nip)))
      (rankList Ri Rj Rk) (fun _ => 0) (k, j, i) = A k j i := by
  obtain ⟨tk, htk, hk1, hk2⟩ := cover1D_lt k hNkp hk
  obtain ⟨tj, htj, hj1, hj2⟩ := cover1D_lt j hNjp hj
  obtain ⟨ti, hti, hi1, hi2⟩ := cover1D_lt i hNip hi
  refine assemble_written _ _ _ _ _ _ ⟨(ti, tj, tk), mem_rankList.mpr ⟨hti, htj, htk⟩, ?_⟩ ?_
  · simp only [gasBlockIn, decide_eq_true_eq]
    exact ⟨hk1, hk2, hj1, hj2, hi1, hi2⟩
  · rintro ⟨ri, rj, rk⟩ _ hw
    simp only [gasBlockIn, decide_eq_true_eq] at hw
    obtain ⟨w1, w2, w3, w4, w5, w6⟩ := hw
    simp only
    rw [Nat.add_sub_cancel' w1, Nat.add_sub_cancel' w3, Nat.add_sub_cancel' w5]

/-- Assembling rank slices of a face-centered global array `A` (blocks
one face wider, overlapping on shared boundary faces where every writer
reads the same `A` value) recovers `A` at every in-range face. -/
theorem assemble_flux_roundTrip (Ri Rj Rk Nip Njp Nkp : ℕ)
    (hRi : 0 < Ri) (hRj : 0 < Rj) (hRk : 0 < Rk)
    (hNip : 0 < Nip) (hNjp : 0 < Njp) (hNkp : 0 < Nkp)
    (A : ℕ → ℕ → ℕ → ℚ) (k j i : ℕ)
    (hk : k ≤ Rk * Nkp) (hj : j ≤ Rj * Njp) (hi : i ≤ Ri * Nip) :
    assemble (fluxBlockIn Nip Njp Nkp)
      (fun r p => A (r.2.2 * Nkp + (p.1 - r.2.2 * Nkp))
        (r.2.1 * Njp + (p.2.1 - r.2.1 * Njp)) (r.1 * Nip + (p.2.2 - r.1 * Nip)))
      (rankList Ri Rj Rk) (fun _ => 0) (k, j, i) = A k j i := by
  obtain ⟨tk, htk, hk1, hk2⟩ := cover1D_le k hNkp hRk hk
  obtain ⟨tj, htj, hj1, hj2⟩ := cover1D_le j hNjp hRj hj
  obtain ⟨ti, hti, hi1, hi2⟩ := cover1D_le i hNip hRi hi
  refine assemble_written _ _ _ _ _ _ ⟨(ti, tj, tk), mem_rankList.mpr ⟨hti, htj, htk⟩, ?_⟩ ?_
  · simp only [fluxBlockIn, decide_eq_true_eq]
    exact ⟨hk1, hk2, hj1, hj2, hi1, hi2⟩
  · rintro ⟨ri, rj, rk⟩ _ hw
    simp only [fluxBlockIn, decide_eq_true_eq] at hw
    obtain ⟨w1, w2, w3, w4, w5, w6⟩ := hw
    simp only
    rw [Nat.add_sub_cancel' w1, Nat.add_sub_cancel' w3, Nat.add_sub_cancel' w5]

/-- **C8**: for every rank decomposition with uniform positive per-rank
cell counts, splitting an assembled restart image into per-rank files
(`PushRestartMPI`) and gathering them back (`PullRestartMPI`) round-trips
the state exactly: the `Gas`, `oGas`, optional `Gas0`, `magFlux` and
`omagFlux` arrays are recovered at every in-range index — the flux
arrays including their shared boundary faces (indices up to `N`, not
`N-1`). -/
theorem pushPullRestart_roundTrip (Ri Rj Rk Nip Njp Nkp : ℕ)
    (hRi : 0 < Ri) (hRj : 0 < Rj) (hRk : 0 < Rk)
    (hNip : 0 < Nip) (hNjp : 0 < Njp) (hNkp : 0 < Nkp)
    (X Y Z : ℕ → ℕ → ℕ → ℚ)
    (G oG : ℕ → ℕ → ℕ → ℕ → ℕ → ℚ) (M oM : ℕ → ℕ → ℕ → ℕ → ℚ)
    (G0 : Option (ℕ → ℕ → ℕ → ℕ → ℕ → ℚ)) :
    (∀ s v k j i, k < Rk * Nkp → j < Rj * Njp → i < Ri * Nip →
      (PullRestartMPI Ri Rj Rk Nip Njp Nkp
        (PushRestartMPI Nip Njp Nkp X Y Z G M oG oM G0)).1 s v k j i =
        G s v k j i) ∧
    (∀ d k j i, k ≤ Rk * Nkp → j ≤ Rj * Njp → i ≤ Ri * Nip →
      (PullRestartMPI Ri Rj Rk Nip Njp Nkp
        (PushRestartMPI Nip Njp Nkp X Y Z G M oG oM G0)).2.1 d k j i =
        M d k j i) ∧
    ((PullRestartMPI Ri Rj Rk Nip Njp Nkp
        (PushRestartMPI Nip Njp Nkp X Y Z G M oG oM G0)).2.2.1.isSome =
      G0.isSome) ∧
    (∀ s v k j i, k < Rk * Nkp → j < Rj * Njp → i < Ri * Nip →
      oGas5 ((PullRestartMPI Ri Rj Rk Nip Njp Nkp
        (PushRestartMPI Nip Njp Nkp X Y Z G M oG oM G0)).2.2.1) s v k j i =
        oGas5 G0 s v k j i) ∧
    (∀ s v k j i, k < Rk * Nkp → j < Rj * Njp → i < Ri * Nip →
      (PullRestartMPI Ri Rj Rk Nip Njp Nkp
        (PushRestartMPI Nip Njp Nkp X Y Z G M oG oM G0)).2.2.2.1 s v k j i =
        oG s v k j i) ∧
    (∀ d k j i, k ≤ Rk * Nkp → j ≤ Rj * Njp → i ≤ Ri * Nip →
      (PullRestartMPI Ri Rj Rk Nip Njp Nkp
        (PushRestartMPI Nip Njp Nkp X Y Z G M oG oM G0)).2.2.2.2 d k j i =
        oM d k j i) := by
  refine ⟨?_, ?_, ?_, ?_, ?_, ?_⟩
  · intro s v k j i hk hj hi
    exact assemble_gas_roundTrip Ri Rj Rk Nip Njp Nkp hNip hNjp hNkp
      (fun kk jj ii => G s v kk jj ii) k j i hk hj hi
  · intro d k j i hk hj hi
    exact assemble_flux_roundTrip Ri Rj Rk Nip Njp Nkp hRi hRj hRk hNip hNjp hNkp
      (fun kk jj ii => M d kk jj ii) k j i hk hj hi
  · cases G0 <;> rfl
  · intro s v k j i hk hj hi
    cases G0 with
    | none => rfl
    | some g0 =>
      exact assemble_gas_roundTrip Ri Rj Rk Nip Njp Nkp hNip hNjp hNkp
        (fun kk jj ii => g0 s v kk jj ii) k j i hk hj hi
  · intro s v k j i hk hj hi
    exact assemble_gas_roundTrip Ri Rj Rk Nip Njp Nkp hNip hNjp hNkp
      (fun kk jj ii => oG s v kk jj ii) k j i hk hj hi
  · intro d k j i hk hj hi
    exact assemble_flux_roundTrip Ri Rj Rk Nip Njp Nkp hRi hRj hRk hNip hNjp hNkp
      (fun kk jj ii => oM d kk jj ii) k j i hk hj hi

/-- Witness for `pushPullRestart_roundTrip`: a 2×1×1 decomposition of a
unit-per-rank grid, checked at a shared boundary face of `magFlux` and
at a `Gas0` entry. -/
theorem pushPullRestart_roundTrip_wit :
    (PullRestartMPI 2 1 1 1 1 1
      (PushRestartMPI 1 1 1 onesVol onesVol onesVol onesGas onesFlux
        onesGas onesFlux (some onesGas))).2.1 0 1 1 2 = onesFlux 0 1 1 2 ∧
    oGas5 ((PullRestartMPI 2 1 1 1 1 1
      (PushRestartMPI 1 1 1 onesVol onesVol onesVol onesGas onesFlux
        onesGas onesFlux (some onesGas))).2.2.1) 0 0 0 0 1 =
      oGas5 (some onesGas) 0 0 0 0 1 :=
  ⟨(pushPullRestart_roundTrip 2 1 1 1 1 1 (by decide) (by decide) (by decide)
      (by decide) (by decide) (by decide) onesVol onesVol onesVol onesGas
      onesGas onesFlux onesFlux (some onesGas)).2.1 0 1 1 2
      (by decide) (by decide) (by decide),
    (pushPullRestart_roundTrip 2 1 1 1 1 1 (by decide) (by decide) (by decide)
      (by decide) (by decide) (by decide) onesVol onesVol onesVol onesGas
      onesGas onesFlux onesFlux (some onesGas)).2.2.2.1 0 0 0 0 1
      (by decide) (by decide) (by decide)⟩
